import Mathlib

/-!
Verification of the task/variable resolution engine of the `project-tasks`
repository (`src/project_tasks/pyproject.py` and `src/project_tasks/service.py`).

The Python code is shallowly embedded: dicts become association lists (Python
dicts preserve insertion order and have unique keys), exceptions become
`Except`, the regular expression `VARIABLE_PATTERN` becomes an explicit
left-to-right scanner, `str.replace` becomes `pyReplace`, and the process
environment and the file system are passed in explicitly as a `World` value.
-/

namespace ProjectTasks

/-! ## The placeholder pattern

`VARIABLE_PATTERN = re.compile(r"\$\x7bvar\.([a-zA-Z0-9-_]*)\x7d")` from
`pyproject.py`.  A match is the literal text `$\x7bvar.` followed by a
(possibly empty) run of name characters followed by `\x7d`; the captured group
is the run of name characters.  `re.findall` returns the captured groups of
all non-overlapping matches, scanning left to right.
-/

/-- Character class `[a-zA-Z0-9-_]` of the regular expression. -/
def isNameChar (c : Char) : Bool :=
  c.isAlphanum || c == '-' || c == '_'

/-- The literal prefix of the pattern, the text before the captured group. -/
def phPrefix : List Char := ['$', '\x7b', 'v', 'a', 'r', '.']

/-- The full text of a placeholder for variable name `n`; this is what
`f"$\x7b\x7bvar.\x7bvariable_name\x7d\x7d\x7d"` produces in
`Config.get_task`. -/
def phPatL (n : List Char) : List Char :=
  phPrefix ++ n ++ ['\x7d']

/-- Try to match `VARIABLE_PATTERN` at the start of `s`.  On success, return
the captured group (the variable name) and the remainder of the string after
the match.  The name run is greedy; since `\x7d` is not a name character,
backtracking cannot produce any other match, so this is exactly the regex
semantics. -/
def matchPH (s : List Char) : Option (List Char × List Char) :=
  if phPrefix <+: s then
    match (s.drop 6).dropWhile isNameChar with
    | '\x7d' :: r => some ((s.drop 6).takeWhile isNameChar, r)
    | _ => none
  else none

/-- A token of the scanned string: a character that is not part of any match,
or a placeholder match carrying its captured variable name. -/
inductive PToken where
  | lit (c : Char)
  | ph (name : List Char)
deriving DecidableEq, Repr

theorem matchPH_some_eq {s n r : List Char} (h : matchPH s = some (n, r)) :
    s = phPatL n ++ r ∧ ∀ c ∈ n, isNameChar c = true := by
  unfold matchPH at h
  split at h
  · rename_i hpre
    split at h
    · rename_i r' heq
      injection h with h'
      injection h' with h1 h2
      obtain ⟨t, ht⟩ := hpre
      have hdrop : s.drop 6 = t := by
        rw [← ht]
        simp [phPrefix]
      rw [hdrop] at heq h1
      rw [h2] at heq
      constructor
      · have hsplit : t = n ++ ('\x7d' :: r) := by
          rw [← h1, ← heq, List.takeWhile_append_dropWhile]
        rw [← ht, hsplit, phPatL]
        simp
      · intro c hc
        rw [← h1] at hc
        exact List.mem_takeWhile_imp hc
    · exact absurd h (by simp)
  · exact absurd h (by simp)

theorem matchPH_length {s n r : List Char} (h : matchPH s = some (n, r)) :
    r.length < s.length := by
  obtain ⟨hs, -⟩ := matchPH_some_eq h
  subst hs
  simp [phPatL, phPrefix]
  omega

theorem splitNameRun {α : Type} (p : α → Bool) (b : α) (hb : p b = false) :
    ∀ n r : List α, (∀ c ∈ n, p c = true) →
      (n ++ b :: r).takeWhile p = n ∧ (n ++ b :: r).dropWhile p = b :: r := by
  intro n
  induction n with
  | nil =>
    intro r _
    simp [List.takeWhile_cons, List.dropWhile_cons, hb]
  | cons a t ih =>
    intro r hn
    have ha : p a = true := hn a (by simp)
    have ih' := ih r (fun c hc => hn c (by simp [hc]))
    simp [List.takeWhile_cons, List.dropWhile_cons, ha, ih'.1, ih'.2]

theorem matchPH_phPatL (n r : List Char) (hn : ∀ c ∈ n, isNameChar c = true) :
    matchPH (phPatL n ++ r) = some (n, r) := by
  have hsplit : (phPatL n ++ r).drop 6 = n ++ ('\x7d' :: r) := by
    simp [phPatL, phPrefix]
  have hrun := splitNameRun isNameChar '\x7d' (by decide) n r hn
  unfold matchPH
  rw [if_pos (by exact ⟨n ++ ('\x7d' :: r), by simp [phPatL, phPrefix]⟩ : phPrefix <+: phPatL n ++ r)]
  rw [hsplit, hrun.2, hrun.1]
  rfl

theorem matchPH_not_dollar {c : Char} {rest : List Char} (h : c ≠ '$') :
    matchPH (c :: rest) = none := by
  unfold matchPH
  rw [if_neg]
  intro hpre
  rw [phPrefix] at hpre
  rw [List.cons_prefix_cons] at hpre
  exact h hpre.1.symm

/-- Scanner for `VARIABLE_PATTERN`: walk the string left to right; at each
position, if the pattern matches, emit a `ph` token and continue after the
match (matches are non-overlapping, as in `re`), otherwise emit the current
character as a `lit` token and advance one character.  The fuel argument is a
step bound; it is consumed once per emitted token and `scanPH` passes the
string length, which suffices because every token consumes at least one
character. -/
def scanPHAux : Nat → List Char → List PToken
  | _, [] => []
  | 0, _ :: _ => []
  | fuel + 1, c :: rest =>
    match matchPH (c :: rest) with
    | some (n, r) => .ph n :: scanPHAux fuel r
    | none => .lit c :: scanPHAux fuel rest

/-- Scan a whole string into tokens. -/
def scanPH (s : List Char) : List PToken := scanPHAux s.length s

theorem scanPHAux_adequate : ∀ fuel fuel' s, s.length ≤ fuel → s.length ≤ fuel' →
    scanPHAux fuel s = scanPHAux fuel' s := by
  intro fuel
  induction fuel with
  | zero =>
    intro fuel' s hs _
    match s with
    | [] => cases fuel' <;> rfl
    | c :: rest => simp at hs
  | succ f ih =>
    intro fuel' s hs hs'
    match s with
    | [] => cases fuel' <;> rfl
    | c :: rest =>
      match fuel' with
      | 0 => simp at hs'
      | f' + 1 =>
        cases hm : matchPH (c :: rest) with
        | some nr =>
          obtain ⟨n, r⟩ := nr
          have hlen := matchPH_length hm
          simp only [List.length_cons] at hlen hs hs'
          simp only [scanPHAux, hm]
          rw [ih f' r (by omega) (by omega)]
        | none =>
          simp only [List.length_cons] at hs hs'
          simp only [scanPHAux, hm]
          rw [ih f' rest (by omega) (by omega)]

theorem scanPH_nil : scanPH [] = [] := rfl

theorem scanPH_cons (c : Char) (rest : List Char) :
    scanPH (c :: rest) =
      match matchPH (c :: rest) with
      | some (n, r) => .ph n :: scanPH r
      | none => .lit c :: scanPH rest := by
  cases hm : matchPH (c :: rest) with
  | some nr =>
    obtain ⟨n, r⟩ := nr
    have hlen := matchPH_length hm
    simp only [List.length_cons] at hlen
    show scanPHAux (rest.length + 1) (c :: rest) = _
    simp only [scanPHAux, hm]
    rw [scanPHAux_adequate rest.length r.length r (by omega) (le_refl _)]
    rfl
  | none =>
    show scanPHAux (rest.length + 1) (c :: rest) = _
    simp only [scanPHAux, hm]
    rfl

/-- `VARIABLE_PATTERN.findall(step)`: the captured groups of all
non-overlapping matches in scan order. -/
def findall (s : List Char) : List (List Char) :=
  (scanPH s).filterMap fun t =>
    match t with
    | .ph n => some n
    | .lit _ => none

/-! ## Python `str.replace`

`step.replace(old, new)` replaces every non-overlapping occurrence of `old`
in `step` by `new`, scanning left to right.  As with the scanner, the fuel
argument is a step bound and the wrapper passes the string length, which
suffices because every step consumes at least one character when `old` is
nonempty; an empty `old` is handled separately (Python then inserts `new`
before every character and at the end). -/

def pyReplaceAux (old new : List Char) : Nat → List Char → List Char
  | _, [] => []
  | 0, s => s
  | fuel + 1, c :: rest =>
    if old <+: c :: rest then
      new ++ pyReplaceAux old new fuel ((c :: rest).drop old.length)
    else
      c :: pyReplaceAux old new fuel rest

/-- Python `s.replace(old, new)`. -/
def pyReplace (s old new : List Char) : List Char :=
  match old with
  | [] => new ++ (s.map fun c => c :: new).flatten
  | _ :: _ => pyReplaceAux old new s.length s

theorem pyReplaceAux_adequate {old : List Char} (hold : old ≠ []) (new : List Char) :
    ∀ fuel fuel' s, s.length ≤ fuel → s.length ≤ fuel' →
      pyReplaceAux old new fuel s = pyReplaceAux old new fuel' s := by
  intro fuel
  induction fuel with
  | zero =>
    intro fuel' s hs _
    match s with
    | [] => cases fuel' <;> rfl
    | c :: rest => simp at hs
  | succ f ih =>
    intro fuel' s hs hs'
    match s with
    | [] => cases fuel' <;> rfl
    | c :: rest =>
      match fuel' with
      | 0 => simp at hs'
      | f' + 1 =>
        simp only [List.length_cons] at hs hs'
        by_cases hpre : old <+: c :: rest
        · simp only [pyReplaceAux, if_pos hpre]
          have holdlen : 1 ≤ old.length := by
            cases old with
            | nil => exact absurd rfl hold
            | cons _ _ => simp
          have hdlen : ((c :: rest).drop old.length).length ≤ rest.length := by
            simp only [List.length_drop, List.length_cons]
            omega
          rw [ih f' _ (by omega) (by omega)]
        · simp only [pyReplaceAux, if_neg hpre]
          rw [ih f' rest (by omega) (by omega)]

theorem pyReplace_nil {old : List Char} (hold : old ≠ []) (new : List Char) :
    pyReplace [] old new = [] := by
  cases old with
  | nil => exact absurd rfl hold
  | cons a t => rfl

theorem pyReplace_cons_pos {old : List Char} {c : Char} {rest : List Char}
    (hold : old ≠ []) (hpre : old <+: c :: rest) (new : List Char) :
    pyReplace (c :: rest) old new = new ++ pyReplace ((c :: rest).drop old.length) old new := by
  have holdlen : 1 ≤ old.length := by
    cases old with
    | nil => exact absurd rfl hold
    | cons _ _ => simp
  cases old with
  | nil => exact absurd rfl hold
  | cons a t =>
    show pyReplaceAux (a :: t) new (rest.length + 1) (c :: rest) = _
    simp only [pyReplaceAux, if_pos hpre]
    congr 1
    show _ = pyReplaceAux (a :: t) new ((c :: rest).drop (a :: t).length).length
      ((c :: rest).drop (a :: t).length)
    exact pyReplaceAux_adequate (by simp) new rest.length _ _
      (by simp only [List.length_drop, List.length_cons]; omega) (le_refl _)

theorem pyReplace_cons_neg {old : List Char} {c : Char} {rest : List Char}
    (hold : old ≠ []) (hpre : ¬(old <+: c :: rest)) (new : List Char) :
    pyReplace (c :: rest) old new = c :: pyReplace rest old new := by
  cases old with
  | nil => exact absurd rfl hold
  | cons a t =>
    show pyReplaceAux (a :: t) new (rest.length + 1) (c :: rest) = _
    simp only [pyReplaceAux, if_neg hpre]
    congr 1

/-! ## The task model

`_TaskCommand`, `_TaskReference`, `_TaskDefinition`, `Task` and
`_resolve_task` from `pyproject.py`.  A step of a task definition is either a
command (a list of command strings) or a reference to another task by name.
The raw task graph (a Python dict from task name to definition) becomes an
association list; `List.lookup` returns the first binding, and Python dict
keys are unique, so the encodings agree. -/

/-- One step of a `_TaskDefinition`: `_TaskCommand` or `_TaskReference`. -/
inductive TaskStep where
  | cmd (steps : List String)
  | ref (name : String)
deriving DecidableEq, Repr

/-- `_TaskDefinition`: a list of task commands and task references. -/
structure TaskDefinition where
  steps : List TaskStep
deriving DecidableEq, Repr

/-- `Task`: a resolved task, a list of commands as strings. -/
structure Task where
  steps : List String
deriving DecidableEq, Repr

/-- The exceptions `_resolve_task` can raise.  `CircularDependencyError` and
`UnknownTaskReferenceError` carry the two names passed to their constructors;
`indexError` models the `IndexError` that `parents[-1]` would raise on an
empty tuple (unreachable from `_resolve_all_tasks`, which only resolves names
present in the graph). -/
inductive ResolveError where
  | circularDependency (task_a task_b : String)
  | unknownTaskReference (task_name parent : String)
  | indexError
deriving DecidableEq, Repr

/-- The raw task graph: the Python dict `dict[str, _TaskDefinition]`. -/
abbrev TaskGraph := List (String × TaskDefinition)

/-- Number of task names in the graph that are not yet on the ancestor path;
this is the termination measure of the recursive resolution. -/
def unseen (g : TaskGraph) (parents : List String) : Nat :=
  (g.map Prod.fst).countP fun k => decide (k ∉ parents)

theorem lookup_some_mem {β : Type} {g : List (String × β)} {n : String} {d : β}
    (h : List.lookup n g = some d) : n ∈ g.map Prod.fst := by
  induction g with
  | nil => simp [List.lookup] at h
  | cons p t ih =>
    rw [List.lookup] at h
    split at h
    · rename_i heq
      simp only [beq_iff_eq] at heq
      simp [heq]
    · simpa using Or.inr (ih h)

theorem unseen_append_lt {g : TaskGraph} {parents : List String} {r : String}
    (hmem : r ∈ g.map Prod.fst) (hnot : r ∉ parents) :
    unseen g (parents ++ [r]) < unseen g parents := by
  unfold unseen
  generalize g.map Prod.fst = keys at hmem
  induction keys with
  | nil => simp at hmem
  | cons a t ih =>
    rw [List.countP_cons, List.countP_cons]
    have hmono : t.countP (fun k => decide (k ∉ parents ++ [r])) ≤
        t.countP (fun k => decide (k ∉ parents)) := by
      apply List.countP_mono_left
      intro x _ hx
      simp only [decide_eq_true_eq, List.mem_append] at hx ⊢
      exact fun hxp => hx (Or.inl hxp)
    by_cases har : a = r
    · subst har
      have h1 : decide (a ∉ parents ++ [a]) = false := by simp
      have h2 : decide (a ∉ parents) = true := by simp [hnot]
      rw [h1, h2]
      simp only [Bool.false_eq_true, if_false, if_true, add_zero]
      omega
    · have hmem' : r ∈ t := by
        cases hmem with
        | head => exact absurd rfl har
        | tail _ h => exact h
      have ht := ih hmem'
      have himp : decide (a ∉ parents ++ [r]) = true → decide (a ∉ parents) = true := by
        simp only [decide_eq_true_eq, List.mem_append]
        exact fun h hp => h (Or.inl hp)
      by_cases ha : decide (a ∉ parents ++ [r]) = true
      · rw [ha, himp ha]
        omega
      · rw [Bool.not_eq_true] at ha
        rw [ha]
        simp only [Bool.false_eq_true, if_false, add_zero]
        split <;> omega

/-- The body of the `for item in definition.steps` loop of `_resolve_task`,
together with the inlined recursive call.  `parents` is the ancestor chain
including the task whose steps are being resolved.  For a `_TaskReference`
step, the code of `_resolve_task(graph, item.name, parents)` is inlined: the
circular-dependency check (`CircularDependencyError(parents[-1], task_name)`),
the graph lookup (`UnknownTaskReferenceError(task_name, parents[-1])` on
`KeyError`; evaluating `parents[-1]` first raises `IndexError` on an empty
chain), then the recursive resolution of the referenced definition with the
referenced name appended to `parents`.  For a `_TaskCommand` step, its
strings are appended (`resolved.extend(item.steps)`). -/
def resolveSteps (g : TaskGraph) (parents : List String) :
    List TaskStep → Except ResolveError (List String)
  | [] => .ok []
  | .cmd cs :: rest => do
    let tl ← resolveSteps g parents rest
    .ok (cs ++ tl)
  | .ref r :: rest =>
    if hmem : r ∈ parents then
      .error (.circularDependency (parents.getLastD "") r)
    else
      match hlk : List.lookup r g with
      | none =>
        match parents.getLast? with
        | some p => .error (.unknownTaskReference r p)
        | none => .error .indexError
      | some d => do
        let hd ← resolveSteps g (parents ++ [r]) d.steps
        let tl ← resolveSteps g parents rest
        .ok (hd ++ tl)
termination_by steps => (unseen g parents, steps.length)
decreasing_by
  · apply Prod.Lex.right
    simp
  · apply Prod.Lex.left
    exact unseen_append_lt (lookup_some_mem hlk) hmem
  · apply Prod.Lex.right
    simp

/-- `_resolve_task(graph, task_name, parents)`: check the circular-dependency
and unknown-task conditions for `task_name` itself, then resolve its steps
with `task_name` appended to the ancestor chain and wrap the resulting
command list in a `Task`. -/
def resolveTask (g : TaskGraph) (task_name : String) (parents : List String := []) :
    Except ResolveError Task :=
  if task_name ∈ parents then
    .error (.circularDependency (parents.getLastD "") task_name)
  else
    match List.lookup task_name g with
    | none =>
      match parents.getLast? with
      | some p => .error (.unknownTaskReference task_name p)
      | none => .error .indexError
    | some d => (resolveSteps g (parents ++ [task_name]) d.steps).map Task.mk

theorem resolveSteps_nil (g : TaskGraph) (parents : List String) :
    resolveSteps g parents [] = .ok [] := by
  simp [resolveSteps]

theorem resolveSteps_cmd (g : TaskGraph) (parents : List String) (cs : List String)
    (rest : List TaskStep) :
    resolveSteps g parents (.cmd cs :: rest) = (do
      let tl ← resolveSteps g parents rest
      .ok (cs ++ tl)) := by
  rw [resolveSteps]

theorem resolveSteps_ref (g : TaskGraph) (parents : List String) (r : String)
    (rest : List TaskStep) :
    resolveSteps g parents (.ref r :: rest) = (do
      let t ← resolveTask g r parents
      let tl ← resolveSteps g parents rest
      .ok (t.steps ++ tl)) := by
  rw [resolveSteps]
  by_cases hmem : r ∈ parents
  · simp only [dif_pos hmem, resolveTask, if_pos hmem]
    rfl
  · simp only [dif_neg hmem]
    split
    · rename_i hlk
      rw [resolveTask, if_neg hmem, hlk]
      cases parents.getLast? <;> rfl
    · rename_i d hlk
      rw [resolveTask, if_neg hmem, hlk]
      cases hres : resolveSteps g (parents ++ [r]) d.steps with
      | error e =>
        simp only [hres, Except.map]
        rfl
      | ok v =>
        simp only [hres, Except.map]
        rfl

/-! ## The variable resolver

`_VariableDefinition`, `Variable` and `_resolve_all_variables` from
`pyproject.py`.  The getter built by `getter_factory` reads the process
environment and the file system; both are passed in explicitly as a `World`
(an association list of set environment variables and one of existing files
with their contents).  The `ValueError` raised by the getter becomes an
`Except.error` carrying the exact message string. -/

/-- The process environment and the file system as seen by a getter. -/
structure World where
  environ : List (String × String)
  files : List (String × String)

/-- `_VariableDefinition`: `default`, `env`, `file` (a path), `secret`. -/
structure VariableDefinition where
  default : Option String := none
  env : Option String := none
  file : Option String := none
  secret : Bool := false
deriving DecidableEq, Repr

/-- The getter closure produced by `getter_factory(name, env, file, default)`
inside `_resolve_all_variables`: return the override if not `None`; else the
value of the environment variable `env` if `env` is set and present in
`os.environ`; else the contents of `file` if `file` is set and exists; else
`default` if set; else raise
`ValueError(f"variable \x27\x7bname\x7d\x27: value is not defined.")`. -/
def varGetter (w : World) (name : String) (env file default : Option String)
    (override : Option String) : Except String String :=
  match override with
  | some o => .ok o
  | none =>
    match env.bind fun e => List.lookup e w.environ with
    | some v => .ok v
    | none =>
      match file.bind fun f => List.lookup f w.files with
      | some contents => .ok contents
      | none =>
        match default with
        | some d => .ok d
        | none => .error ("variable \x27" ++ name ++ "\x27: value is not defined.")

/-- `Variable`: a getter plus a secret flag. -/
structure Variable where
  getter : Option String → Except String String
  secret : Bool := false

/-- `Variable.get(override, dry_run=False)`: evaluate the getter; when
`dry_run` is requested and the variable is secret, return `"*" * len(value)`
instead of the value. -/
def Variable.get (v : Variable) (override : Option String) (dry_run : Bool := false) :
    Except String String :=
  match v.getter override with
  | .error e => .error e
  | .ok value =>
    if dry_run && v.secret then .ok (String.mk (List.replicate value.length '*'))
    else .ok value

/-- `_resolve_all_variables`: build a `Variable` with the factory getter for
each definition. -/
def resolveAllVariables (w : World) (vars : List (String × VariableDefinition)) :
    List (String × Variable) :=
  vars.map fun nd =>
    (nd.1, { getter := varGetter w nd.1 nd.2.env nd.2.file nd.2.default, secret := nd.2.secret })

/-! ## Config assembly

`Config` and `Config.get_task` from `pyproject.py`.  `get_task` looks the
task up (`KeyError` if absent), then for each step collects
`VARIABLE_PATTERN.findall(step)` and, for each found name in order, resolves
the variable (`KeyError` if the name is not a configured variable;
`Variable.get` is called with the override from `override_variables` and the
default `dry_run=False`) and replaces every occurrence of
`"$\x7bvar.\x7bname\x7d\x7d"` in the evolving step string by the value. -/

/-- An exception escaping `Config.get_task`: a dict `KeyError` (missing task
or variable name) or the `ValueError` raised by a getter. -/
inductive SubstError where
  | keyError (key : String)
  | valueError (msg : String)
deriving DecidableEq, Repr

/-- `Config`: resolved tasks and variables, keyed by name (the `vars` field
is the Python `variables` attribute; `variables` is a reserved word in
Lean). -/
structure Config where
  tasks : List (String × Task)
  vars : List (String × Variable)

/-- The inner loop of `Config.get_task` for one step string. -/
def substStep (vars : List (String × Variable)) (override_variables : List (String × String))
    (step : String) : Except SubstError String :=
  (findall step.data).foldlM
    (fun s name =>
      match List.lookup (String.mk name) vars with
      | none => .error (.keyError (String.mk name))
      | some v =>
        match v.get (List.lookup (String.mk name) override_variables) with
        | .error e => .error (.valueError e)
        | .ok value => .ok (String.mk (pyReplace s.data (phPatL name) value.data)))
    step

/-- `Config.get_task(task_name, override_variables)`. -/
def Config.get_task (cfg : Config) (task_name : String)
    (override_variables : List (String × String)) : Except SubstError Task :=
  match List.lookup task_name cfg.tasks with
  | none => .error (.keyError task_name)
  | some task => do
    let steps ← task.steps.mapM (substStep cfg.vars override_variables)
    .ok (Task.mk steps)

/-! ## The execution service

`Request` and `Service.execute` from `service.py`.  The executor is modelled
as a function from a command string to its exit code, and the output sink as
the lists of lines written to stdout (`output.write`) and stderr
(`output.write_error`).  The result also records every command string passed
to `executor.run`, in order, so that "the executor is never invoked" is
observable.  Exceptions escaping `config.get_task` propagate. -/

/-- `Request`: requested task names, variable overrides, dry-run flag. -/
structure Request where
  tasks : List String
  vars : List (String × String)
  dry_run : Bool

/-- Observable outcome of `Service.execute`: the returned exit code, the
lines written to stdout and stderr, and the commands run by the executor. -/
structure ExecResult where
  code : Int
  stdout : List String
  stderr : List String
  executed : List String
deriving Repr, DecidableEq

/-- Python `repr` of a plain string (no escaping needed for the names used
here): the string in single quotes. -/
def pyStrRepr (s : String) : String := "\x27" ++ s ++ "\x27"

/-- Python `repr` of a list of strings, as produced by
`f"\x7bunknown_tasks\x7d"`: elements separated by `", "`, in brackets. -/
def pyListRepr (l : List String) : String :=
  "[" ++ pyListReprMid l ++ "]"
where
  pyListReprMid : List String → String
    | [] => ""
    | [x] => pyStrRepr x
    | x :: xs => pyStrRepr x ++ ", " ++ pyListReprMid xs

/-- The inner `for command in task.steps` loop of `Service.execute`: returns
the stdout lines, the commands passed to the executor, and `some code` if a
command failed with nonzero exit code `code` (the loop stops there). -/
def runCommands (runner : String → Int) (dry_run : Bool) :
    List String → List String × List String × Option Int
  | [] => ([], [], none)
  | command :: rest =>
    if dry_run then
      let (o, x, f) := runCommands runner dry_run rest
      (command :: o, x, f)
    else
      let return_code := runner command
      if return_code ≠ 0 then ([], [command], some return_code)
      else
        let (o, x, f) := runCommands runner dry_run rest
        (o, command :: x, f)

/-- The outer `for task_name in request.tasks` loop of `Service.execute`:
resolve each task via `get_task` (errors propagate), run its commands, stop
with the failing exit code and the error line naming the owning task on the
first failure. -/
def runTasks (cfg : Config) (runner : String → Int) (ov : List (String × String))
    (dry_run : Bool) : List String → Except SubstError ExecResult
  | [] => .ok ⟨0, [], [], []⟩
  | task_name :: rest => do
    let task ← cfg.get_task task_name ov
    let res := runCommands runner dry_run task.steps
    match res.2.2 with
    | some return_code =>
      .ok ⟨return_code, res.1,
        ["task: error: task " ++ task_name ++ " failed with exit code " ++ toString return_code],
        res.2.1⟩
    | none => do
      let tail ← runTasks cfg runner ov dry_run rest
      .ok ⟨tail.code, res.1 ++ tail.stdout, tail.stderr, res.2.1 ++ tail.executed⟩

/-- The `unknown_tasks` list comprehension of `Service.execute`: the
requested task names absent from `config.tasks`, in request order. -/
def unknownTasks (cfg : Config) (request : Request) : List String :=
  request.tasks.filter fun task_name => (List.lookup task_name cfg.tasks).isNone

/-- `Service.execute(request)`: pre-flight check that all requested names
exist (reporting all missing ones at once and returning 1), then run the
tasks in order.  `unknown_tasks[0]` of the singular message is `headD`, safe
here since that branch has a nonempty list. -/
def Service.execute (cfg : Config) (runner : String → Int) (request : Request) :
    Except SubstError ExecResult :=
  if unknownTasks cfg request ≠ [] then
    if (unknownTasks cfg request).length > 1 then
      .ok ⟨1, [],
        ["task: error: tasks do not exist: " ++ pyListRepr (unknownTasks cfg request)], []⟩
    else
      .ok ⟨1, [],
        ["task: error: task do not exist: " ++ pyStrRepr ((unknownTasks cfg request).headD "")],
        []⟩
  else
    runTasks cfg runner request.vars request.dry_run request.tasks

/-! ## Claim-side definition of exhaustive substitution

The wording of the substitution claim - every occurrence of every
placeholder is replaced by the resolved value of its variable, other text
unchanged - is simultaneous substitution over the scanned tokens.  This
definition follows the claim wording, for comparison with what
`Config.get_task` computes. -/

/-- Replace each placeholder token by its value, keep literal characters. -/
def substTokens (vals : List Char → List Char) : List PToken → List Char
  | [] => []
  | .lit c :: ts => c :: substTokens vals ts
  | .ph n :: ts => vals n ++ substTokens vals ts

/-- Simultaneous substitution of all placeholders of `s`, as the claim words
it. -/
def simulSubst (vals : List Char → List Char) (s : List Char) : List Char :=
  substTokens vals (scanPH s)

instance {ε α : Type} [DecidableEq ε] [DecidableEq α] : DecidableEq (Except ε α) := fun x y =>
  match x, y with
  | .ok a, .ok b =>
    if h : a = b then .isTrue (by rw [h])
    else .isFalse (fun hc => h (Except.ok.inj hc))
  | .error a, .error b =>
    if h : a = b then .isTrue (by rw [h])
    else .isFalse (fun hc => h (Except.error.inj hc))
  | .ok a, .error b => .isFalse (fun hc => Except.noConfusion hc)
  | .error a, .ok b => .isFalse (fun hc => Except.noConfusion hc)

/-! ## Concrete data used by witnesses and counterexamples -/

/-- A world with one set environment variable and one existing file. -/
def wEnvFile : World := ⟨[("E", "ev")], [("f.txt", "fc")]⟩

/-- An empty world: no environment variables set, no files exist. -/
def wEmpty : World := ⟨[], []⟩

/-! ## C2: variable value precedence -/

/-- C2: the value provider built by `_resolve_all_variables` follows the
precedence override > environment > file > default: a non-null override is
returned as is; otherwise the value of the configured environment variable if
it is set and present in the environment; otherwise the contents of the
configured file if it is set and exists; otherwise the default if set;
otherwise a value-not-defined error whose message names the variable. -/
theorem variable_precedence (w : World) (name : String) (d : VariableDefinition) :
    (∀ o : String, varGetter w name d.env d.file d.default (some o) = .ok o) ∧
    (∀ v, (d.env.bind fun e => List.lookup e w.environ) = some v →
      varGetter w name d.env d.file d.default none = .ok v) ∧
    (∀ fv, (d.env.bind fun e => List.lookup e w.environ) = none →
      (d.file.bind fun f => List.lookup f w.files) = some fv →
      varGetter w name d.env d.file d.default none = .ok fv) ∧
    (∀ dv, (d.env.bind fun e => List.lookup e w.environ) = none →
      (d.file.bind fun f => List.lookup f w.files) = none →
      d.default = some dv →
      varGetter w name d.env d.file d.default none = .ok dv) ∧
    ((d.env.bind fun e => List.lookup e w.environ) = none →
      (d.file.bind fun f => List.lookup f w.files) = none →
      d.default = none →
      varGetter w name d.env d.file d.default none =
        .error ("variable \x27" ++ name ++ "\x27: value is not defined.") ∧
      name.data <:+: ("variable \x27" ++ name ++ "\x27: value is not defined.").data) := by
  refine ⟨fun o => rfl, ?_, ?_, ?_, ?_⟩
  · intro v hv
    unfold varGetter
    rw [hv]
  · intro fv henv hfile
    unfold varGetter
    rw [henv, hfile]
  · intro dv henv hfile hdef
    unfold varGetter
    rw [henv, hfile, hdef]
  · intro henv hfile hdef
    constructor
    · unfold varGetter
      rw [henv, hfile, hdef]
    · exact ⟨("variable \x27").data, ("\x27: value is not defined.").data, by
        simp [String.data_append]⟩

theorem variable_precedence_witness :
    varGetter wEnvFile "x" (some "E") (some "f.txt") (some "d") (some "o") = .ok "o" ∧
    varGetter wEnvFile "x" (some "E") (some "f.txt") (some "d") none = .ok "ev" ∧
    varGetter wEnvFile "x" (some "MISSING") (some "f.txt") (some "d") none = .ok "fc" ∧
    varGetter wEnvFile "x" (some "MISSING") (some "gone.txt") (some "d") none = .ok "d" ∧
    varGetter wEnvFile "x" (some "MISSING") (some "gone.txt") none none =
      .error "variable \x27x\x27: value is not defined." := by
  refine ⟨?_, ?_, ?_, ?_, ?_⟩
  · exact (variable_precedence wEnvFile "x"
      ⟨some "d", some "E", some "f.txt", false⟩).1 "o"
  · exact (variable_precedence wEnvFile "x"
      ⟨some "d", some "E", some "f.txt", false⟩).2.1 "ev" (by decide)
  · exact (variable_precedence wEnvFile "x"
      ⟨some "d", some "MISSING", some "f.txt", false⟩).2.2.1 "fc" (by decide) (by decide)
  · exact (variable_precedence wEnvFile "x"
      ⟨some "d", some "MISSING", some "gone.txt", false⟩).2.2.2.1 "d" (by decide) (by decide) rfl
  · exact ((variable_precedence wEnvFile "x"
      ⟨none, some "MISSING", some "gone.txt", false⟩).2.2.2.2 (by decide) (by decide) rfl).1

/-! ## C3: overrides returned verbatim (corrected)

The getter does return a non-null override verbatim, but `Variable.get`
applies secret masking after the getter runs, so for a secret variable under
`dry_run=True` the override comes back masked, not unchanged. -/

/-- C3 counterexample: for the secret variable `x` (default `"d"`) built by
`_resolve_all_variables`, `Variable.get("ab", dry_run=True)` returns `"**"`,
not the override `"ab"` - secrecy is not ignored by `get`. -/
theorem override_dry_run_masking_counterexample :
    (List.lookup "x" (resolveAllVariables wEmpty [("x", { default := some "d", secret := true })])).map
      (fun v => v.get (some "ab") true) = some (.ok "**") ∧
    (Except.ok "**" : Except String String) ≠ .ok "ab" := by
  constructor
  · rfl
  · decide

/-- C3 amended: a non-null override is returned verbatim by the value
provider built by `_resolve_all_variables` (env, file, default and secrecy
ignored), and `Variable.get` returns the override unchanged except when the
variable is secret and `dry_run` is requested, in which case it returns a
mask of `*` of the override's length. -/
theorem override_verbatim_amended :
    (∀ (w : World) (name : String) (env file default : Option String) (o : String),
      varGetter w name env file default (some o) = .ok o) ∧
    (∀ (v : Variable) (o : String) (dry : Bool), v.getter (some o) = .ok o →
      v.get (some o) dry =
        if dry && v.secret then .ok (String.mk (List.replicate o.length '*'))
        else .ok o) := by
  constructor
  · intro w name env file default o
    rfl
  · intro v o dry hv
    unfold Variable.get
    rw [hv]

theorem override_verbatim_amended_witness :
    ((resolveAllVariables wEmpty [("x", { default := some "d", secret := true })]).headD
      ("x", ⟨fun _ => .error "", false⟩)).2.get (some "ab") true = .ok "**" := by
  have h := override_verbatim_amended.2
    ((resolveAllVariables wEmpty [("x", { default := some "d", secret := true })]).headD
      ("x", ⟨fun _ => .error "", false⟩)).2 "ab" true rfl
  rw [h]
  decide

/-! ## C4: secret masking under dry-run -/

/-- C4: for a variable whose getter yields `val`, `Variable.get` with
`dry_run=True` and `secret=True` returns a string made only of `*` whose
length equals the length of `val`; with `dry_run=False`, or with
`secret=False`, it returns `val` unmasked. -/
theorem secret_masking (v : Variable) (o : Option String) (val : String)
    (h : v.getter o = .ok val) :
    (v.secret = true →
      v.get o true = .ok (String.mk (List.replicate val.length '*')) ∧
      (String.mk (List.replicate val.length '*')).length = val.length ∧
      ∀ c ∈ (String.mk (List.replicate val.length '*')).data, c = '*') ∧
    v.get o false = .ok val ∧
    (v.secret = false → v.get o true = .ok val) := by
  refine ⟨?_, ?_, ?_⟩
  · intro hs
    refine ⟨?_, by simp, ?_⟩
    · unfold Variable.get
      rw [h, hs]
      rfl
    · intro c hc
      exact List.eq_of_mem_replicate hc
  · unfold Variable.get
    rw [h]
    rfl
  · intro hs
    unfold Variable.get
    rw [h, hs]
    rfl

/-! ## Helper lemmas about `Except` -/

theorem exbind_ok {ε α β : Type} (a : α) (f : α → Except ε β) :
    (Except.ok a >>= f) = f a := rfl

theorem exbind_error {ε α β : Type} (e : ε) (f : α → Except ε β) :
    ((Except.error e : Except ε α) >>= f) = .error e := rfl

theorem exmap_ok {ε α β : Type} {f : α → β} {x : Except ε α} {b : β} :
    Except.map f x = .ok b ↔ ∃ a, x = .ok a ∧ f a = b := by
  cases x with
  | error e => simp [Except.map]
  | ok a => simp [Except.map]

theorem secret_masking_witness :
    Variable.get ⟨varGetter wEmpty "s" none none (some "hunter2"), true⟩ none true =
      .ok "*******" ∧
    Variable.get ⟨varGetter wEmpty "s" none none (some "hunter2"), true⟩ none false =
      .ok "hunter2" := by
  have h := secret_masking ⟨varGetter wEmpty "s" none none (some "hunter2"), true⟩
    none "hunter2" rfl
  refine ⟨?_, h.2.1⟩
  rw [(h.1 rfl).1]
  decide

/-! ## C5: circular dependencies name the immediate pair -/

/-- The two-node cycle `A -> B -> A`. -/
def gCycle : TaskGraph := [("A", ⟨[.ref "B"]⟩), ("B", ⟨[.ref "A"]⟩)]

/-- C5: whenever resolution re-enters a task already on the ancestor path, it
fails with `CircularDependencyError(parents[-1], task_name)` - the most
recent ancestor paired with the re-entered task, not the full cycle; in
particular, resolving `A` in the graph `A -> B -> A` fails naming `(B, A)`. -/
theorem circular_dependency_immediate_pair :
    (∀ (g : TaskGraph) (task_name : String) (parents : List String),
      task_name ∈ parents →
      resolveTask g task_name parents =
        .error (.circularDependency (parents.getLastD "") task_name)) ∧
    resolveTask gCycle "A" [] = .error (.circularDependency "B" "A") := by
  constructor
  · intro g task_name parents hmem
    unfold resolveTask
    rw [if_pos hmem]
  · have hA : resolveTask gCycle "A" ["A", "B"] =
        .error (.circularDependency "B" "A") := by
      unfold resolveTask
      rw [if_pos (by decide : "A" ∈ ["A", "B"])]
      rfl
    have hB : resolveTask gCycle "B" ["A"] = .error (.circularDependency "B" "A") := by
      show (resolveSteps gCycle ["A", "B"] [.ref "A"]).map Task.mk = _
      rw [resolveSteps_ref, hA]
      rfl
    show (resolveSteps gCycle ["A"] [.ref "B"]).map Task.mk = _
    rw [resolveSteps_ref, hB]
    rfl

theorem circular_dependency_immediate_pair_witness :
    resolveTask gCycle "A" ["X", "A"] = .error (.circularDependency "A" "A") := by
  exact circular_dependency_immediate_pair.1 gCycle "A" ["X", "A"] (by decide)

/-! ## C6: unknown references name the missing task and its referencer -/

/-- A task `A` referencing the absent name `N`. -/
def gDangling : TaskGraph := [("A", ⟨[.ref "N"]⟩)]

/-- C6: whenever a referenced name is absent from the graph, resolution fails
with `UnknownTaskReferenceError(task_name, parents[-1])`, carrying the
missing name and the referencing (parent) task; in particular resolving `A`
where `A` references the absent `N` fails naming `(N, A)`. -/
theorem unknown_reference_names_pair :
    (∀ (g : TaskGraph) (task_name parent : String) (parents : List String),
      task_name ∉ parents →
      List.lookup task_name g = none →
      parents.getLast? = some parent →
      resolveTask g task_name parents =
        .error (.unknownTaskReference task_name parent)) ∧
    resolveTask gDangling "A" [] = .error (.unknownTaskReference "N" "A") := by
  constructor
  · intro g task_name parent parents hmem hlk hlast
    unfold resolveTask
    rw [if_neg hmem, hlk, hlast]
  · show (resolveSteps gDangling ["A"] [.ref "N"]).map Task.mk = _
    rw [resolveSteps_ref]
    rfl

theorem unknown_reference_names_pair_witness :
    resolveTask gDangling "Z" ["A"] = .error (.unknownTaskReference "Z" "A") := by
  exact unknown_reference_names_pair.1 gDangling "Z" "A" ["A"] (by decide) (by decide) rfl

/-! ## C1: depth-first, order-preserving expansion

A successful resolution is insensitive to names on the ancestor path that the
traversal never reaches, so the sub-resolutions done with the parent on the
path agree with stand-alone resolutions of the referenced tasks.  This is the
content of the two shrinking lemmas below: a resolution that succeeds with a
larger ancestor path also succeeds, with the same value, with any smaller
path. -/

theorem resolveSteps_shrink (g : TaskGraph) :
    ∀ (k : Nat) (p p' : List String), unseen g p' ≤ k → (∀ x ∈ p, x ∈ p') →
      ∀ (steps : List TaskStep) (v : List String),
        resolveSteps g p' steps = .ok v → resolveSteps g p steps = .ok v := by
  intro k
  induction k using Nat.strong_induction_on with
  | _ k ih =>
    intro p p' hk hsub steps
    induction steps with
    | nil =>
      intro v h
      rwa [resolveSteps_nil] at h ⊢
    | cons s rest ihsteps =>
      cases s with
      | cmd cs =>
        intro v h
        rw [resolveSteps_cmd] at h ⊢
        cases hrest : resolveSteps g p' rest with
        | error e =>
          rw [hrest, exbind_error] at h
          exact absurd h (by simp)
        | ok tl =>
          rw [hrest, exbind_ok] at h
          rw [ihsteps tl hrest, exbind_ok]
          exact h
      | ref r =>
        intro v h
        rw [resolveSteps_ref] at h ⊢
        cases htask : resolveTask g r p' with
        | error e =>
          rw [htask, exbind_error] at h
          exact absurd h (by simp)
        | ok t =>
          rw [htask, exbind_ok] at h
          cases hrest : resolveSteps g p' rest with
          | error e =>
            rw [hrest, exbind_error] at h
            exact absurd h (by simp)
          | ok tl =>
            rw [hrest, exbind_ok] at h
            have htask' : resolveTask g r p = .ok t := by
              unfold resolveTask at htask
              by_cases hrp : r ∈ p'
              · rw [if_pos hrp] at htask
                exact absurd htask (by simp)
              · rw [if_neg hrp] at htask
                cases hlk : List.lookup r g with
                | none =>
                  rw [hlk] at htask
                  have htask2 : (match p'.getLast? with
                    | some q => Except.error (ResolveError.unknownTaskReference r q)
                    | none => Except.error ResolveError.indexError) = Except.ok t := htask
                  split at htask2 <;> exact Except.noConfusion htask2
                | some d =>
                  rw [hlk] at htask
                  obtain ⟨steps0, hsteps0, heq⟩ := exmap_ok.mp htask
                  have hless : unseen g (p' ++ [r]) < k :=
                    lt_of_lt_of_le (unseen_append_lt (lookup_some_mem hlk) hrp) hk
                  have hrec := ih (unseen g (p' ++ [r])) hless (p ++ [r]) (p' ++ [r])
                    (le_refl _)
                    (fun x hx => by
                      rcases List.mem_append.mp hx with hx1 | hx2
                      · exact List.mem_append.mpr (Or.inl (hsub x hx1))
                      · exact List.mem_append.mpr (Or.inr hx2))
                    d.steps steps0 hsteps0
                  have hr_p : r ∉ p := fun hmem => hrp (hsub r hmem)
                  unfold resolveTask
                  rw [if_neg hr_p, hlk]
                  show Except.map Task.mk (resolveSteps g (p ++ [r]) d.steps) = Except.ok t
                  rw [hrec, ← heq]
                  rfl
            rw [htask', exbind_ok, ihsteps tl hrest, exbind_ok]
            exact h

theorem resolveTask_shrink {g : TaskGraph} {n : String} {p p' : List String} {t : Task}
    (hsub : ∀ x ∈ p, x ∈ p') (h : resolveTask g n p' = .ok t) :
    resolveTask g n p = .ok t := by
  unfold resolveTask at h
  by_cases hnp : n ∈ p'
  · rw [if_pos hnp] at h
    exact absurd h (by simp)
  · rw [if_neg hnp] at h
    cases hlk : List.lookup n g with
    | none =>
      rw [hlk] at h
      have h2 : (match p'.getLast? with
        | some q => Except.error (ResolveError.unknownTaskReference n q)
        | none => Except.error ResolveError.indexError) = Except.ok t := h
      split at h2 <;> exact Except.noConfusion h2
    | some d =>
      rw [hlk] at h
      obtain ⟨steps0, hsteps0, heq⟩ := exmap_ok.mp h
      have hrec := resolveSteps_shrink g (unseen g (p' ++ [n])) (p ++ [n]) (p' ++ [n])
        (le_refl _)
        (fun x hx => by
          rcases List.mem_append.mp hx with hx1 | hx2
          · exact List.mem_append.mpr (Or.inl (hsub x hx1))
          · exact List.mem_append.mpr (Or.inr hx2))
        d.steps steps0 hsteps0
      have hn_p : n ∉ p := fun hmem => hnp (hsub n hmem)
      unfold resolveTask
      rw [if_neg hn_p, hlk]
      show Except.map Task.mk (resolveSteps g (p ++ [n]) d.steps) = Except.ok t
      rw [hrec, ← heq]
      rfl

/-- C1: dependency expansion is depth-first and order-preserving.  If task
`T` is defined with steps `[ref A, cmd cs, ref B]` and its resolution
succeeds, then the stand-alone resolutions of `A` and `B` succeed as well and
the resolved command list of `T` is exactly `expand(A) ++ cs ++ expand(B)`:
the command step appears in its original position between the fully expanded
command lists of the two references.  The resolved task consists of command
strings only - `Task.steps : List String` has no reference constructor, as
in the code, where `_resolve_task` accumulates `resolved: list[str]`. -/
theorem resolve_task_depth_first_order (g : TaskGraph) (T A B : String)
    (cs steps : List String)
    (hT : List.lookup T g = some ⟨[.ref A, .cmd cs, .ref B]⟩)
    (hok : resolveTask g T [] = .ok ⟨steps⟩) :
    ∃ ta tb : Task, resolveTask g A [] = .ok ta ∧ resolveTask g B [] = .ok tb ∧
      steps = ta.steps ++ cs ++ tb.steps := by
  unfold resolveTask at hok
  rw [if_neg (by simp : ¬ T ∈ ([] : List String)), hT] at hok
  obtain ⟨steps0, hsteps0, heq⟩ := exmap_ok.mp hok
  have hsteps : steps0 = steps := congrArg Task.steps heq
  rw [resolveSteps_ref] at hsteps0
  cases htaskA : resolveTask g A ([] ++ [T]) with
  | error e =>
    rw [htaskA, exbind_error] at hsteps0
    exact absurd hsteps0 (by simp)
  | ok ta =>
    rw [htaskA, exbind_ok] at hsteps0
    cases hrest : resolveSteps g ([] ++ [T]) [.cmd cs, .ref B] with
    | error e =>
      rw [hrest, exbind_error] at hsteps0
      exact absurd hsteps0 (by simp)
    | ok tl =>
      rw [hrest, exbind_ok] at hsteps0
      rw [resolveSteps_cmd] at hrest
      cases hrefB : resolveSteps g ([] ++ [T]) [.ref B] with
      | error e =>
        rw [hrefB, exbind_error] at hrest
        exact absurd hrest (by simp)
      | ok tl2 =>
        rw [hrefB, exbind_ok] at hrest
        rw [resolveSteps_ref] at hrefB
        cases htaskB : resolveTask g B ([] ++ [T]) with
        | error e =>
          rw [htaskB, exbind_error] at hrefB
          exact absurd hrefB (by simp)
        | ok tb =>
          rw [htaskB, exbind_ok] at hrefB
          rw [resolveSteps_nil, exbind_ok] at hrefB
          refine ⟨ta, tb, resolveTask_shrink (by simp) htaskA,
            resolveTask_shrink (by simp) htaskB, ?_⟩
          have h1 : ta.steps ++ tl = steps0 := Except.ok.inj hsteps0
          have h2 : cs ++ tl2 = tl := Except.ok.inj hrest
          have h3 : tb.steps ++ [] = tl2 := Except.ok.inj hrefB
          rw [← hsteps, ← h1, ← h2, ← h3]
          simp

/-- The graph of the worked example: `T = \x7bdeps to A, cmd x, dep to B\x7d`
with `A = [a1, a2]` and `B = [b]`. -/
def gC1 : TaskGraph :=
  [("T", ⟨[.ref "A", .cmd ["x"], .ref "B"]⟩),
   ("A", ⟨[.cmd ["a1", "a2"]]⟩),
   ("B", ⟨[.cmd ["b"]]⟩)]

theorem resolve_task_depth_first_order_witness :
    ∃ ta tb : Task, resolveTask gC1 "A" [] = .ok ta ∧ resolveTask gC1 "B" [] = .ok tb ∧
      ["a1", "a2", "x", "b"] = ta.steps ++ ["x"] ++ tb.steps := by
  have hA : resolveTask gC1 "A" ["T"] = .ok ⟨["a1", "a2"]⟩ := by
    show (resolveSteps gC1 ["T", "A"] [.cmd ["a1", "a2"]]).map Task.mk = _
    rw [resolveSteps_cmd, resolveSteps_nil]
    rfl
  have hB : resolveTask gC1 "B" ["T"] = .ok ⟨["b"]⟩ := by
    show (resolveSteps gC1 ["T", "B"] [.cmd ["b"]]).map Task.mk = _
    rw [resolveSteps_cmd, resolveSteps_nil]
    rfl
  have hok : resolveTask gC1 "T" [] = .ok ⟨["a1", "a2", "x", "b"]⟩ := by
    show (resolveSteps gC1 ["T"] [.ref "A", .cmd ["x"], .ref "B"]).map Task.mk = _
    rw [resolveSteps_ref, hA, resolveSteps_cmd, resolveSteps_ref, hB, resolveSteps_nil]
    rfl
  exact resolve_task_depth_first_order gC1 "T" "A" "B" ["x"] ["a1", "a2", "x", "b"] rfl hok

/-! ## C8: pre-flight validation of requested task names -/

theorem isInfix_append_left {α : Type} {l a : List α} (b : List α) (h : l <:+: a) :
    l <:+: a ++ b := by
  obtain ⟨s, t, hst⟩ := h
  exact ⟨s, t ++ b, by rw [← hst]; simp⟩

theorem isInfix_append_right {α : Type} {l b : List α} (a : List α) (h : l <:+: b) :
    l <:+: a ++ b := by
  obtain ⟨s, t, hst⟩ := h
  exact ⟨a ++ s, t, by rw [← hst]; simp⟩

theorem infix_pyStrRepr (n : String) : n.data <:+: (pyStrRepr n).data :=
  ⟨['\x27'], ['\x27'], by simp [pyStrRepr, String.data_append]⟩

theorem infix_pyListReprMid : ∀ (l : List String) (n : String), n ∈ l →
    n.data <:+: (pyListRepr.pyListReprMid l).data := by
  intro l
  induction l with
  | nil => intro n hn; simp at hn
  | cons x xs ih =>
    intro n hn
    cases xs with
    | nil =>
      rw [List.mem_singleton] at hn
      subst hn
      exact infix_pyStrRepr n
    | cons y ys =>
      show n.data <:+: ((pyStrRepr x ++ ", ") ++ pyListRepr.pyListReprMid (y :: ys)).data
      rw [String.data_append]
      cases hn with
      | head =>
        exact isInfix_append_left _ (by
          rw [String.data_append]
          exact isInfix_append_left _ (infix_pyStrRepr x))
      | tail _ hmem =>
        exact isInfix_append_right _ (ih n hmem)

theorem infix_pyListRepr {l : List String} {n : String} (h : n ∈ l) :
    n.data <:+: (pyListRepr l).data := by
  show n.data <:+: ("[" ++ pyListRepr.pyListReprMid l ++ "]").data
  rw [String.data_append, String.data_append]
  exact isInfix_append_left _ (isInfix_append_right _ (infix_pyListReprMid l n h))

/-- C8: if at least one requested task name is missing from the config,
`Service.execute` writes exactly one error line whose text contains every
missing name (not only the first), returns exit code 1, invokes the executor
on nothing, writes no stdout line, and resolves and runs no task. -/
theorem preflight_unknown_tasks (cfg : Config) (runner : String → Int) (request : Request)
    (hmiss : unknownTasks cfg request ≠ []) :
    ∃ msg : String,
      Service.execute cfg runner request = .ok ⟨1, [], [msg], []⟩ ∧
      ∀ n ∈ unknownTasks cfg request, n.data <:+: msg.data := by
  unfold Service.execute
  rw [if_pos hmiss]
  by_cases hlen : (unknownTasks cfg request).length > 1
  · rw [if_pos hlen]
    refine ⟨_, rfl, ?_⟩
    intro n hn
    show n.data <:+: ("task: error: tasks do not exist: " ++ pyListRepr (unknownTasks cfg request)).data
    rw [String.data_append]
    exact isInfix_append_right _ (infix_pyListRepr hn)
  · rw [if_neg hlen]
    refine ⟨_, rfl, ?_⟩
    intro n hn
    rcases hu : unknownTasks cfg request with - | ⟨x, xs⟩
    · exact absurd hu hmiss
    · rw [hu] at hn hlen
      cases xs with
      | nil =>
        rw [List.mem_singleton] at hn
        subst hn
        rw [String.data_append]
        exact isInfix_append_right _ (infix_pyStrRepr _)
      | cons y ys => simp at hlen

/-- Config of the end-to-end examples: two tasks, no variables. -/
def cfgE2E : Config :=
  ⟨[("t1", ⟨["cmd-ok"]⟩), ("t2", ⟨["cmd-fail"]⟩)], []⟩

theorem preflight_unknown_tasks_witness :
    ∃ msg : String,
      Service.execute cfgE2E (fun _ => 0) ⟨["nope1", "t1", "nope2"], [], false⟩ =
        .ok ⟨1, [], [msg], []⟩ ∧
      ∀ n ∈ unknownTasks cfgE2E ⟨["nope1", "t1", "nope2"], [], false⟩, n.data <:+: msg.data := by
  exact preflight_unknown_tasks cfgE2E (fun _ => 0) ⟨["nope1", "t1", "nope2"], [], false⟩
    (by decide)

/-! ## C9: fail-fast on the first failing command -/

/-- The resolved command list of a task, empty if resolution fails; used only
to state which commands ran. -/
def okSteps (cfg : Config) (ov : List (String × String)) (t : String) : List String :=
  match cfg.get_task t ov with
  | .ok task => task.steps
  | .error _ => []

theorem runTasks_nil (cfg : Config) (runner : String → Int) (ov : List (String × String))
    (dry : Bool) : runTasks cfg runner ov dry [] = .ok ⟨0, [], [], []⟩ := rfl

theorem runTasks_cons (cfg : Config) (runner : String → Int) (ov : List (String × String))
    (dry : Bool) (t : String) (rest : List String) :
    runTasks cfg runner ov dry (t :: rest) = (do
      let task ← cfg.get_task t ov
      match (runCommands runner dry task.steps).2.2 with
      | some return_code =>
        Except.ok (⟨return_code, (runCommands runner dry task.steps).1,
          ["task: error: task " ++ t ++ " failed with exit code " ++ toString return_code],
          (runCommands runner dry task.steps).2.1⟩ : ExecResult)
      | none => do
        let tail ← runTasks cfg runner ov dry rest
        Except.ok (⟨tail.code, (runCommands runner dry task.steps).1 ++ tail.stdout,
          tail.stderr, (runCommands runner dry task.steps).2.1 ++ tail.executed⟩ :
          ExecResult)) := rfl

theorem runCommands_nil (runner : String → Int) (dry : Bool) :
    runCommands runner dry [] = ([], [], none) := rfl

theorem runCommands_cons_dry (runner : String → Int) (command : String) (rest : List String) :
    runCommands runner true (command :: rest) =
      ((command :: (runCommands runner true rest).1, (runCommands runner true rest).2.1,
        (runCommands runner true rest).2.2)) := by
  show (if (true : Bool) then _ else _) = _
  rw [if_pos rfl]

theorem runCommands_cons_fail (runner : String → Int) {command : String} (rest : List String)
    (hfail : runner command ≠ 0) :
    runCommands runner false (command :: rest) = ([], [command], some (runner command)) := by
  show (if (false : Bool) then _ else _) = _
  rw [if_neg (by simp), if_pos hfail]

theorem runCommands_cons_zero (runner : String → Int) {command : String} (rest : List String)
    (hzero : runner command = 0) :
    runCommands runner false (command :: rest) =
      ((runCommands runner false rest).1, command :: (runCommands runner false rest).2.1,
        (runCommands runner false rest).2.2) := by
  show (if (false : Bool) then _ else _) = _
  rw [if_neg (by simp), hzero, if_neg (by simp)]

theorem runCommands_all_zero (runner : String → Int) {cs : List String}
    (hall : ∀ x ∈ cs, runner x = 0) :
    runCommands runner false cs = ([], cs, none) := by
  induction cs with
  | nil => rfl
  | cons c rest ih =>
    rw [runCommands_cons_zero runner rest (hall c (by simp)),
      ih (fun x hx => hall x (by simp [hx]))]

theorem runCommands_first_fail (runner : String → Int) {pre : List String} {c : String}
    {post : List String} {r : Int} (hpre : ∀ x ∈ pre, runner x = 0)
    (hc : runner c = r) (hr : r ≠ 0) :
    runCommands runner false (pre ++ c :: post) = ([], pre ++ [c], some r) := by
  induction pre with
  | nil =>
    rw [List.nil_append, runCommands_cons_fail runner post (by rw [hc]; exact hr), hc]
    rfl
  | cons p pre2 ih =>
    rw [List.cons_append, runCommands_cons_zero runner _ (hpre p (by simp)),
      ih (fun x hx => hpre x (by simp [hx]))]
    rfl

/-- C9: on a non-dry-run request over known tasks, if all commands before
some command `c` of task `T` succeed and `c` fails with nonzero code `r`,
`Service.execute` returns `r`, writes the single error line naming `T` and
`r`, and executes exactly the earlier tasks commands, the commands of `T`
before `c`, and `c` itself - nothing of `T` after `c` and nothing of any
later requested task. -/
theorem fail_fast_on_command_failure (cfg : Config) (runner : String → Int)
    (ov : List (String × String)) (ts1 ts2 : List String) (T : String)
    (pre post : List String) (c : String) (r : Int) (taskT : Task)
    (h1 : ∀ t ∈ ts1, ∃ task : Task,
      cfg.get_task t ov = .ok task ∧ ∀ x ∈ task.steps, runner x = 0)
    (hT : cfg.get_task T ov = .ok taskT)
    (hTsteps : taskT.steps = pre ++ c :: post)
    (hpre : ∀ x ∈ pre, runner x = 0)
    (hc : runner c = r) (hr : r ≠ 0)
    (hknown : unknownTasks cfg ⟨ts1 ++ T :: ts2, ov, false⟩ = []) :
    Service.execute cfg runner ⟨ts1 ++ T :: ts2, ov, false⟩ =
      .ok ⟨r, [],
        ["task: error: task " ++ T ++ " failed with exit code " ++ toString r],
        ts1.flatMap (okSteps cfg ov) ++ (pre ++ [c])⟩ := by
  unfold Service.execute
  rw [if_neg (by rw [hknown]; simp)]
  show runTasks cfg runner ov false (ts1 ++ T :: ts2) = _
  clear hknown
  induction ts1 with
  | nil =>
    rw [List.nil_append, runTasks_cons, hT, exbind_ok, hTsteps,
      runCommands_first_fail runner hpre hc hr]
    simp
  | cons t ts1x ih =>
    obtain ⟨task, htask, hzero⟩ := h1 t (by simp)
    have ihx := ih (fun x hx => h1 x (by simp [hx]))
    rw [List.cons_append, runTasks_cons, htask, exbind_ok,
      runCommands_all_zero runner hzero, ihx, exbind_ok]
    have hok : okSteps cfg ov t = task.steps := by
      unfold okSteps
      rw [htask]
    simp [hok]

/-- The executor of the end-to-end example: `cmd-fail` exits 1, everything
else exits 0. -/
def runnerE2E : String → Int := fun command => if command = "cmd-fail" then 1 else 0

theorem fail_fast_on_command_failure_witness :
    Service.execute cfgE2E runnerE2E ⟨["t1", "t2"], [], false⟩ =
      .ok ⟨1, [], ["task: error: task t2 failed with exit code 1"], ["cmd-ok", "cmd-fail"]⟩ := by
  have h := fail_fast_on_command_failure cfgE2E runnerE2E [] ["t1"] [] "t2" [] [] "cmd-fail"
    1 ⟨["cmd-fail"]⟩
    (by
      intro t ht
      rw [List.mem_singleton] at ht
      subst ht
      exact ⟨⟨["cmd-ok"]⟩, rfl, by decide⟩)
    rfl rfl (by simp) rfl (by decide) (by decide)
  exact h.trans (by decide)

/-! ## C10: `get_task` substitutes raw values; dry-run output leaks secrets -/

/-- Config with one secret variable and a task whose command mentions it. -/
def cfgLeak : Config :=
  ⟨[("deploy", ⟨["echo $\x7bvar.token\x7d"]⟩)],
   resolveAllVariables wEmpty [("token", { default := some "hunter2", secret := true })]⟩

/-- C10: `Config.get_task` calls `Variable.get` with the default
`dry_run=False`, and `Variable.get` with `dry_run=False` is exactly the raw
getter - masking never applies, whatever the secret flag.  Consequently a
dry-run request prints command lines with secret values substituted in the
clear: for the secret variable `token = hunter2`, the dry run of `deploy`
writes `echo hunter2` to stdout, runs nothing, and succeeds. -/
theorem dry_run_leaks_secrets :
    (∀ (v : Variable) (o : Option String), v.get o false = v.getter o) ∧
    Service.execute cfgLeak (fun _ => 0) ⟨["deploy"], [], true⟩ =
      .ok ⟨0, ["echo hunter2"], [], []⟩ := by
  constructor
  · intro v o
    unfold Variable.get
    cases h : v.getter o with
    | error e => rfl
    | ok value =>
      show (if (false && v.secret) = true then
          Except.ok (String.mk (List.replicate value.length '*'))
        else Except.ok value) = Except.ok value
      rw [if_neg (show ¬(false && v.secret) = true by simp)]
  · decide

/-! ## C7: exhaustive substitution (corrected)

The fold of `str.replace` calls in `Config.get_task` coincides with the
simultaneous substitution the claim describes only when no replacement can
create or destroy placeholder text: every `$` of a step must belong to a
placeholder and no substituted value may contain `$`.  Without these
conditions the claim fails (see the counterexample).  The development below
relates the fold to the token list of the scanned step: a *segment* list
refines the token list as replacements turn placeholders into plain text. -/

/-- A segment of a partially substituted step string: already-plain text or a
still-unreplaced placeholder. -/
inductive Seg where
  | chunk (cs : List Char)
  | pat (n : List Char)
deriving DecidableEq, Repr

/-- The string a segment list denotes. -/
def renderSegs : List Seg → List Char
  | [] => []
  | .chunk cs :: ss => cs ++ renderSegs ss
  | .pat n :: ss => phPatL n ++ renderSegs ss

/-- The initial segment of a scanned token. -/
def segOfToken : PToken → Seg
  | .lit c => .chunk [c]
  | .ph n => .pat n

/-- One `str.replace` pass at the segment level: placeholders named `name`
become the plain value `v`, everything else is untouched. -/
def substSeg (name v : List Char) : Seg → Seg
  | .chunk cs => .chunk cs
  | .pat m => if m = name then .chunk v else .pat m

/-- Segment invariant: plain text is free of `$`, placeholder names consist
of name characters. -/
def segClean : Seg → Prop
  | .chunk cs => '$' ∉ cs
  | .pat m => ∀ c ∈ m, isNameChar c = true

/-- The text a token list denotes (placeholders printed back). -/
def tokensText : List PToken → List Char
  | [] => []
  | .lit c :: ts => c :: tokensText ts
  | .ph n :: ts => phPatL n ++ tokensText ts

theorem phPatL_ne_nil (n : List Char) : phPatL n ≠ [] := by
  simp [phPatL, phPrefix]

theorem phPatL_cons (n : List Char) :
    phPatL n = '$' :: ('\x7b' :: 'v' :: 'a' :: 'r' :: '.' :: (n ++ ['\x7d'])) := rfl

/-- The scan reproduces the input: rendering the tokens gives the string
back. -/
theorem tokensText_scanPH : ∀ (k : Nat) (s : List Char), s.length ≤ k →
    tokensText (scanPH s) = s := by
  intro k
  induction k with
  | zero =>
    intro s hs
    match s with
    | [] => rfl
    | c :: rest => simp at hs
  | succ f ih =>
    intro s hs
    match s with
    | [] => rfl
    | c :: rest =>
      rw [scanPH_cons]
      cases hm : matchPH (c :: rest) with
      | some nr =>
        obtain ⟨n, r⟩ := nr
        obtain ⟨hs2, -⟩ := matchPH_some_eq hm
        have hlen := matchPH_length hm
        rw [List.length_cons] at hs hlen
        show phPatL n ++ tokensText (scanPH r) = c :: rest
        rw [ih r (by omega), hs2]
      | none =>
        show c :: tokensText (scanPH rest) = c :: rest
        rw [List.length_cons] at hs
        rw [ih rest (by omega)]

/-- Captured names consist of name characters. -/
theorem scanPH_names : ∀ (k : Nat) (s : List Char), s.length ≤ k →
    ∀ n, PToken.ph n ∈ scanPH s → ∀ c ∈ n, isNameChar c = true := by
  intro k
  induction k with
  | zero =>
    intro s hs
    match s with
    | [] => intro n hn; simp [scanPH_nil] at hn
    | c :: rest => simp at hs
  | succ f ih =>
    intro s hs
    match s with
    | [] => intro n hn; simp [scanPH_nil] at hn
    | c :: rest =>
      rw [scanPH_cons]
      cases hm : matchPH (c :: rest) with
      | some nr =>
        obtain ⟨n0, r⟩ := nr
        obtain ⟨hs2, hname⟩ := matchPH_some_eq hm
        have hlen := matchPH_length hm
        rw [List.length_cons] at hs hlen
        intro n hn
        rcases List.mem_cons.mp hn with h1 | h2
        · injection h1 with h1
          subst h1
          exact hname
        · exact ih r (by omega) n h2
      | none =>
        intro n hn
        rcases List.mem_cons.mp hn with h1 | h2
        · exact absurd h1 (by simp)
        · rw [List.length_cons] at hs
          exact ih rest (by omega) n h2

/-- `str.replace` walks over `$`-free text without touching it. -/
theorem pyReplace_dollar_free {cs : List Char} (hcs : '$' ∉ cs) (t : List Char)
    (n v : List Char) :
    pyReplace (cs ++ t) (phPatL n) v = cs ++ pyReplace t (phPatL n) v := by
  induction cs with
  | nil => simp
  | cons c cs2 ih =>
    have hc : c ≠ '$' := fun h => hcs (by rw [h]; simp)
    have hnp : ¬(phPatL n <+: c :: (cs2 ++ t)) := by
      rw [phPatL_cons, List.cons_prefix_cons]
      intro h
      exact hc h.1.symm
    rw [List.cons_append, pyReplace_cons_neg (phPatL_ne_nil n) hnp,
      ih (fun h => hcs (by simp [h]))]
    rfl

/-- `str.replace` consumes an occurrence of its pattern. -/
theorem pyReplace_at_pattern (n : List Char) (t v : List Char) :
    pyReplace (phPatL n ++ t) (phPatL n) v = v ++ pyReplace t (phPatL n) v := by
  have hpre : phPatL n <+: phPatL n ++ t := List.prefix_append _ _
  rw [phPatL_cons] at hpre ⊢
  rw [List.cons_append] at hpre ⊢
  rw [pyReplace_cons_pos (by simp) hpre v]
  congr 1
  rw [show ('$' :: ('\x7b' :: 'v' :: 'a' :: 'r' :: '.' :: (n ++ ['\x7d']) ++ t)) =
      ('$' :: '\x7b' :: 'v' :: 'a' :: 'r' :: '.' :: (n ++ ['\x7d'])) ++ t from rfl,
    List.drop_left]

/-- Two distinct name-character names never produce overlapping pattern
texts: the pattern of `n` is not a prefix of the pattern of `m` followed by
anything. -/
theorem nameRun_prefix_eq : ∀ (n m t : List Char), (∀ c ∈ n, isNameChar c = true) →
    (∀ c ∈ m, isNameChar c = true) →
    (n ++ ['\x7d']) <+: (m ++ '\x7d' :: t) → n = m := by
  intro n
  induction n with
  | nil =>
    intro m t _ hm hpre
    cases m with
    | nil => rfl
    | cons b m2 =>
      rw [List.nil_append, List.cons_append, List.cons_prefix_cons] at hpre
      have := hm b (by simp)
      rw [← hpre.1] at this
      exact absurd this (by decide)
  | cons a n2 ih =>
    intro m t hn hm hpre
    cases m with
    | nil =>
      rw [List.cons_append, List.nil_append, List.cons_prefix_cons] at hpre
      have := hn a (by simp)
      rw [hpre.1] at this
      exact absurd this (by decide)
    | cons b m2 =>
      rw [List.cons_append, List.cons_append, List.cons_prefix_cons] at hpre
      have heq := ih m2 t (fun c hc => hn c (by simp [hc])) (fun c hc => hm c (by simp [hc]))
        hpre.2
      rw [hpre.1, heq]

theorem phPat_prefix_mismatch {n m : List Char} (hn : ∀ c ∈ n, isNameChar c = true)
    (hm : ∀ c ∈ m, isNameChar c = true) (hne : m ≠ n) (t : List Char) :
    ¬(phPatL n <+: phPatL m ++ t) := by
  intro h
  apply hne
  unfold phPatL at h
  have h2 : phPrefix ++ (n ++ ['\x7d']) <+: phPrefix ++ (m ++ ('\x7d' :: t)) := by
    simpa [List.append_assoc] using h
  rw [List.prefix_append_right_inj] at h2
  exact (nameRun_prefix_eq n m t hn hm h2).symm

/-- `str.replace` for the pattern of `n` walks over the pattern text of a
different name `m` without touching it. -/
theorem pyReplace_other_pattern {n m : List Char} (hn : ∀ c ∈ n, isNameChar c = true)
    (hm : ∀ c ∈ m, isNameChar c = true) (hne : m ≠ n) (t v : List Char) :
    pyReplace (phPatL m ++ t) (phPatL n) v = phPatL m ++ pyReplace t (phPatL n) v := by
  have hnp : ¬(phPatL n <+: phPatL m ++ t) := phPat_prefix_mismatch hn hm hne t
  have hm_dollar : '$' ∉ m := fun hmem => absurd (hm '$' hmem) (by decide)
  have htail : '$' ∉ ('\x7b' :: 'v' :: 'a' :: 'r' :: '.' :: (m ++ ['\x7d'])) := by
    intro hmem
    simp only [List.mem_cons, List.mem_append, List.mem_singleton] at hmem
    rcases hmem with h | h | h | h | h | h | h
    · exact absurd h (by decide)
    · exact absurd h (by decide)
    · exact absurd h (by decide)
    · exact absurd h (by decide)
    · exact absurd h (by decide)
    · exact hm_dollar h
    · exact absurd h (by decide)
  rw [phPatL_cons (n := m), List.cons_append,
    pyReplace_cons_neg (phPatL_ne_nil n)
      (by rw [← List.cons_append, ← phPatL_cons]; exact hnp),
    pyReplace_dollar_free htail t n v]
  rfl

/-- One full `str.replace` pass over a rendered segment list replaces exactly
the placeholders named `n`, provided all plain text is `$`-free, all
placeholder names are name runs, and the value is `$`-free. -/
theorem pyReplace_renderSegs {n v : List Char} (hn : ∀ c ∈ n, isNameChar c = true)
    (hv : '$' ∉ v) :
    ∀ segs : List Seg, (∀ s ∈ segs, segClean s) →
      pyReplace (renderSegs segs) (phPatL n) v = renderSegs (segs.map (substSeg n v)) := by
  intro segs
  induction segs with
  | nil =>
    intro _
    exact pyReplace_nil (phPatL_ne_nil n) v
  | cons sg ss ih =>
    intro hclean
    have hss := fun s hs => hclean s (List.mem_cons_of_mem _ hs)
    cases sg with
    | chunk cs =>
      have hcs : '$' ∉ cs := hclean (.chunk cs) (by simp)
      show pyReplace (cs ++ renderSegs ss) (phPatL n) v =
        renderSegs (substSeg n v (.chunk cs) :: ss.map (substSeg n v))
      rw [pyReplace_dollar_free hcs, ih hss]
      rfl
    | pat m =>
      have hm : ∀ c ∈ m, isNameChar c = true := hclean (.pat m) (by simp)
      by_cases hne : m = n
      · subst hne
        have hsub : substSeg m v (.pat m) = .chunk v := by simp [substSeg]
        show pyReplace (phPatL m ++ renderSegs ss) (phPatL m) v =
          renderSegs (substSeg m v (.pat m) :: ss.map (substSeg m v))
        rw [hsub, pyReplace_at_pattern, ih hss]
        rfl
      · have hsub : substSeg n v (.pat m) = .pat m := by simp [substSeg, hne]
        show pyReplace (phPatL m ++ renderSegs ss) (phPatL n) v =
          renderSegs (substSeg n v (.pat m) :: ss.map (substSeg n v))
        rw [hsub, pyReplace_other_pattern hn hm hne, ih hss]
        rfl

/-- The fold of replacement passes over a name list replaces exactly the
placeholders whose name occurs in the list (repeated names make the later
passes no-ops at the segment level). -/
theorem foldl_substSeg (f : List Char → List Char) :
    ∀ (names : List (List Char)) (segs : List Seg),
      names.foldl (fun sg nm => sg.map (substSeg nm (f nm))) segs =
        segs.map fun sg =>
          match sg with
          | .chunk cs => .chunk cs
          | .pat m => if m ∈ names then .chunk (f m) else .pat m := by
  intro names
  induction names with
  | nil =>
    intro segs
    rw [List.foldl_nil]
    have hid : ∀ sg : Seg, (match sg with
        | Seg.chunk cs => Seg.chunk cs
        | Seg.pat m => if m ∈ ([] : List (List Char)) then Seg.chunk (f m) else Seg.pat m) =
        sg := by
      intro sg
      cases sg with
      | chunk cs => rfl
      | pat m => exact if_neg (by simp)
    rw [List.map_congr_left fun sg _ => hid sg, List.map_id']
  | cons nm names ih =>
    intro segs
    rw [List.foldl_cons, ih, List.map_map]
    apply List.map_congr_left
    intro sg _
    cases sg with
    | chunk cs => rfl
    | pat m =>
      by_cases hmn : m = nm
      · subst hmn
        show (match substSeg m (f m) (.pat m) with
          | .chunk cs => Seg.chunk cs
          | .pat m2 => if m2 ∈ names then Seg.chunk (f m2) else Seg.pat m2) =
          (if m ∈ m :: names then Seg.chunk (f m) else Seg.pat m)
        rw [show substSeg m (f m) (.pat m) = .chunk (f m) by simp [substSeg],
          if_pos (by simp)]
      · show (match substSeg nm (f nm) (.pat m) with
          | .chunk cs => Seg.chunk cs
          | .pat m2 => if m2 ∈ names then Seg.chunk (f m2) else Seg.pat m2) =
          (if m ∈ nm :: names then Seg.chunk (f m) else Seg.pat m)
        rw [show substSeg nm (f nm) (.pat m) = .pat m by simp [substSeg, hmn]]
        show (if m ∈ names then Seg.chunk (f m) else Seg.pat m) = _
        by_cases hmem : m ∈ names
        · rw [if_pos hmem, if_pos (by simp [hmem])]
        · rw [if_neg hmem, if_neg (by simp [hmn, hmem])]

/-- Rendering the segments after all placeholder names have been replaced is
the simultaneous substitution over the tokens. -/
theorem renderSegs_map_full (f : List Char → List Char) (names : List (List Char)) :
    ∀ ts : List PToken, (∀ n, PToken.ph n ∈ ts → n ∈ names) →
      renderSegs ((ts.map segOfToken).map fun sg =>
        match sg with
        | .chunk cs => .chunk cs
        | .pat m => if m ∈ names then .chunk (f m) else .pat m) = substTokens f ts := by
  intro ts
  induction ts with
  | nil => intro _; rfl
  | cons tk ts2 ih =>
    intro hph
    cases tk with
    | lit c =>
      simp only [List.map_cons, segOfToken]
      show [c] ++ renderSegs ((ts2.map segOfToken).map _) = c :: substTokens f ts2
      rw [ih (fun x hx => hph x (by simp [hx]))]
      rfl
    | ph n =>
      have hmem : n ∈ names := hph n (by simp)
      simp only [List.map_cons, segOfToken]
      show renderSegs ((if n ∈ names then Seg.chunk (f n) else Seg.pat n) ::
        (ts2.map segOfToken).map _) = f n ++ substTokens f ts2
      rw [if_pos hmem]
      show f n ++ renderSegs ((ts2.map segOfToken).map _) = _
      rw [ih (fun x hx => hph x (by simp [hx]))]

theorem segClean_substSeg {nm v : List Char} (hv : '$' ∉ v) {s : Seg} (hs : segClean s) :
    segClean (substSeg nm v s) := by
  cases s with
  | chunk cs => exact hs
  | pat m =>
    show segClean (if m = nm then Seg.chunk v else Seg.pat m)
    by_cases h : m = nm
    · rw [if_pos h]
      exact hv
    · rw [if_neg h]
      exact hs

theorem renderSegs_segOfToken : ∀ ts : List PToken,
    renderSegs (ts.map segOfToken) = tokensText ts := by
  intro ts
  induction ts with
  | nil => rfl
  | cons tk ts2 ih =>
    cases tk with
    | lit c =>
      show [c] ++ renderSegs (ts2.map segOfToken) = c :: tokensText ts2
      rw [ih]
      rfl
    | ph n =>
      show phPatL n ++ renderSegs (ts2.map segOfToken) = phPatL n ++ tokensText ts2
      rw [ih]

/-- The `for variable_name in to_replace` loop of `Config.get_task`, at the
segment level: under the cleanliness conditions, folding the `str.replace`
passes over the names computes the fold of segment substitutions. -/
theorem foldlM_subst (vars : List (String × Variable)) (ov : List (String × String))
    (f : List Char → List Char) :
    ∀ (names : List (List Char)) (segs : List Seg),
      (∀ s ∈ segs, segClean s) →
      (∀ nm ∈ names, (∀ c ∈ nm, isNameChar c = true) ∧ ('$' ∉ f nm) ∧ ∃ v : Variable,
        List.lookup (String.mk nm) vars = some v ∧
        v.get (List.lookup (String.mk nm) ov) = .ok (String.mk (f nm))) →
      names.foldlM
        (fun s name =>
          match List.lookup (String.mk name) vars with
          | none => Except.error (SubstError.keyError (String.mk name))
          | some v =>
            match v.get (List.lookup (String.mk name) ov) with
            | .error e => Except.error (SubstError.valueError e)
            | .ok value => Except.ok (String.mk (pyReplace s.data (phPatL name) value.data)))
        (String.mk (renderSegs segs)) =
      .ok (String.mk (renderSegs
        (names.foldl (fun sg nm => sg.map (substSeg nm (f nm))) segs))) := by
  intro names
  induction names with
  | nil =>
    intro segs _ _
    rfl
  | cons nm names ih =>
    intro segs hsegs hnames
    obtain ⟨hnc, hdollar, v, hlk, hget⟩ := hnames nm (by simp)
    simp only [List.foldlM_cons, hlk, hget]
    rw [exbind_ok,
      pyReplace_renderSegs hnc hdollar segs hsegs,
      ih (segs.map (substSeg nm (f nm)))
        (fun s hs => by
          obtain ⟨s0, hs0, hmap⟩ := List.mem_map.mp hs
          rw [← hmap]
          exact segClean_substSeg hdollar (hsegs s0 hs0))
        (fun x hx => hnames x (by simp [hx])),
      List.foldl_cons]

/-- The step-level form of the amended substitution claim: if no token of the
scanned step is a literal `$`, every placeholder name is a defined variable,
and every resolved value is `$`-free, then the fold of `str.replace` calls
performed by `Config.get_task` computes the simultaneous substitution. -/
theorem substStep_simulSubst (vars : List (String × Variable)) (ov : List (String × String))
    (step : String) (f : List Char → List Char)
    (hclean : PToken.lit '$' ∉ scanPH step.data)
    (hdef : ∀ nm ∈ findall step.data, ('$' ∉ f nm) ∧ ∃ v : Variable,
      List.lookup (String.mk nm) vars = some v ∧
      v.get (List.lookup (String.mk nm) ov) = .ok (String.mk (f nm))) :
    substStep vars ov step = .ok (String.mk (simulSubst f step.data)) := by
  have hrender : renderSegs ((scanPH step.data).map segOfToken) = step.data := by
    rw [renderSegs_segOfToken, tokensText_scanPH step.data.length step.data (le_refl _)]
  have hsegs0 : ∀ s ∈ (scanPH step.data).map segOfToken, segClean s := by
    intro s hs
    obtain ⟨tk, htk, hmap⟩ := List.mem_map.mp hs
    rw [← hmap]
    cases tk with
    | lit c =>
      show '$' ∉ [c]
      intro hmem
      rw [List.mem_singleton] at hmem
      rw [← hmem] at htk
      exact hclean htk
    | ph n =>
      exact scanPH_names step.data.length step.data (le_refl _) n htk
  have hnames : ∀ nm ∈ findall step.data,
      (∀ c ∈ nm, isNameChar c = true) ∧ ('$' ∉ f nm) ∧ ∃ v : Variable,
        List.lookup (String.mk nm) vars = some v ∧
        v.get (List.lookup (String.mk nm) ov) = .ok (String.mk (f nm)) := by
    intro nm hnm
    obtain ⟨tk, htk, hval⟩ := List.mem_filterMap.mp hnm
    have hph : tk = PToken.ph nm := by
      cases tk with
      | lit c => exact absurd hval (by simp)
      | ph m =>
        have : m = nm := by
          cases hval
          rfl
        rw [this]
    rw [hph] at htk
    exact ⟨scanPH_names step.data.length step.data (le_refl _) nm htk, hdef nm hnm⟩
  have hinit : String.mk (renderSegs ((scanPH step.data).map segOfToken)) = step := by
    rw [hrender]
  have h := foldlM_subst vars ov f (findall step.data) ((scanPH step.data).map segOfToken)
    hsegs0 hnames
  rw [hinit] at h
  unfold substStep
  rw [h, foldl_substSeg,
    renderSegs_map_full f (findall step.data) (scanPH step.data)
      (fun x hx => List.mem_filterMap.mpr ⟨PToken.ph x, hx, rfl⟩)]
  rfl

/-- C7 amended: variable substitution in `Config.get_task` is exhaustive and
simultaneous - every occurrence of every placeholder is replaced by the
resolved value of its variable, repeated and multiple placeholders included,
other text unchanged - provided additionally that every `$` of a step
belongs to a placeholder and that no resolved value itself contains `$`
(without these provisos the claim fails, see the counterexample). -/
theorem substitution_exhaustive_amended (cfg : Config) (task_name : String)
    (ov : List (String × String)) (task : Task) (f : List Char → List Char)
    (htask : List.lookup task_name cfg.tasks = some task)
    (hclean : ∀ step ∈ task.steps, PToken.lit '$' ∉ scanPH step.data)
    (hdef : ∀ step ∈ task.steps, ∀ nm ∈ findall step.data, ('$' ∉ f nm) ∧ ∃ v : Variable,
      List.lookup (String.mk nm) cfg.vars = some v ∧
      v.get (List.lookup (String.mk nm) ov) = .ok (String.mk (f nm))) :
    cfg.get_task task_name ov =
      .ok ⟨task.steps.map fun st => String.mk (simulSubst f st.data)⟩ := by
  have hmapM : ∀ steps : List String,
      (∀ step ∈ steps, PToken.lit '$' ∉ scanPH step.data) →
      (∀ step ∈ steps, ∀ nm ∈ findall step.data, ('$' ∉ f nm) ∧ ∃ v : Variable,
        List.lookup (String.mk nm) cfg.vars = some v ∧
        v.get (List.lookup (String.mk nm) ov) = .ok (String.mk (f nm))) →
      steps.mapM (substStep cfg.vars ov) =
        .ok (steps.map fun st => String.mk (simulSubst f st.data)) := by
    intro steps
    induction steps with
    | nil => intro _ _; rfl
    | cons st rest ih =>
      intro hc hd
      rw [List.mapM_cons,
        substStep_simulSubst cfg.vars ov st f (hc st (by simp)) (hd st (by simp)),
        exbind_ok,
        ih (fun x hx => hc x (by simp [hx])) (fun x hx => hd x (by simp [hx])),
        exbind_ok]
      rfl
  unfold Config.get_task
  rw [htask]
  show (do
    let steps ← task.steps.mapM (substStep cfg.vars ov)
    Except.ok (Task.mk steps)) = _
  rw [hmapM task.steps hclean hdef, exbind_ok]

/-- Config of the substitution counterexample: `a1` resolves to `b` (a
variable name), `a2` resolves to the literal placeholder text of `b`, and
the step of `t1` contains a stray `$\x7bvar.` outside any placeholder. -/
def cfgSubst : Config :=
  ⟨[("t1", ⟨["$\x7bvar.$\x7bvar.a1\x7d\x7d $\x7bvar.b\x7d"]⟩),
    ("t2", ⟨["$\x7bvar.a2\x7d $\x7bvar.b\x7d"]⟩)],
   resolveAllVariables wEmpty
     [("a1", { default := some "b" }),
      ("a2", { default := some "$\x7bvar.b\x7d" }),
      ("b", { default := some "B" })]⟩

/-- The resolved value of each variable of `cfgSubst` (checked against the
actual resolution inside the counterexample). -/
def fSubst : List Char → List Char := fun nm =>
  if nm = "a1".data then "b".data
  else if nm = "a2".data then "$\x7bvar.b\x7d".data
  else if nm = "b".data then "B".data
  else []

/-- C7 counterexample: in `cfgSubst` every placeholder name occurring in the
steps of `t1` and `t2` is a defined variable whose resolved value is given by
`fSubst`, yet `get_task` returns `"B B"` for both tasks while replacing every
original placeholder occurrence by its resolved value yields
`"$\x7bvar.b\x7d B"`: the sequential `str.replace` passes re-substitute text
introduced by earlier passes, so the claim as stated fails. -/
theorem substitution_not_simultaneous_counterexample :
    (∀ nm ∈ findall ("$\x7bvar.$\x7bvar.a1\x7d\x7d $\x7bvar.b\x7d").data,
      (List.lookup (String.mk nm) cfgSubst.vars).map (fun v => v.get none) =
        some (.ok (String.mk (fSubst nm)))) ∧
    (∀ nm ∈ findall ("$\x7bvar.a2\x7d $\x7bvar.b\x7d").data,
      (List.lookup (String.mk nm) cfgSubst.vars).map (fun v => v.get none) =
        some (.ok (String.mk (fSubst nm)))) ∧
    cfgSubst.get_task "t1" [] = .ok ⟨["B B"]⟩ ∧
    cfgSubst.get_task "t2" [] = .ok ⟨["B B"]⟩ ∧
    String.mk (simulSubst fSubst ("$\x7bvar.$\x7bvar.a1\x7d\x7d $\x7bvar.b\x7d").data) =
      "$\x7bvar.b\x7d B" ∧
    String.mk (simulSubst fSubst ("$\x7bvar.a2\x7d $\x7bvar.b\x7d").data) =
      "$\x7bvar.b\x7d B" ∧
    ("B B" : String) ≠ "$\x7bvar.b\x7d B" := by
  refine ⟨by decide, by decide, by decide, by decide, by decide, by decide, by decide⟩

/-- Config of the substitution witness: one variable, one task whose step
uses it once. -/
def cfgW : Config :=
  ⟨[("t", ⟨["echo $\x7bvar.name\x7d"]⟩)],
   resolveAllVariables wEmpty [("name", { default := some "value" })]⟩

/-- Resolved values of `cfgW`. -/
def fW : List Char → List Char := fun nm =>
  if nm = "name".data then "value".data else []

theorem substitution_exhaustive_amended_witness :
    cfgW.get_task "t" [] = .ok ⟨["echo value"]⟩ := by
  have h := substitution_exhaustive_amended cfgW "t" [] ⟨["echo $\x7bvar.name\x7d"]⟩ fW
    rfl
    (by
      intro step hstep
      rw [show Task.steps ⟨["echo $\x7bvar.name\x7d"]⟩ = ["echo $\x7bvar.name\x7d"] from rfl,
        List.mem_singleton] at hstep
      subst hstep
      decide)
    (by
      intro step hstep
      rw [show Task.steps ⟨["echo $\x7bvar.name\x7d"]⟩ = ["echo $\x7bvar.name\x7d"] from rfl,
        List.mem_singleton] at hstep
      subst hstep
      intro nm hnm
      have hfind : findall ("echo $\x7bvar.name\x7d").data = ["name".data] := by decide
      rw [hfind, List.mem_singleton] at hnm
      subst hnm
      exact ⟨by decide,
        ⟨varGetter wEmpty "name" none none (some "value"), false⟩, rfl, by decide⟩)
  exact h.trans (by decide)

end ProjectTasks
